import Mathlib

/-!
Verification of the static-analysis core of the ERPNext-Code-Analyzer repository:
a shallow embedding of `extractor.py` (class `CodeExtractor`) and `relationships.py`
(class `RelationshipDetector`), together with theorems settling the frozen claims
about their behaviour.

The parsed tree (`ast` module output) is embedded as the inductive type `Node`;
the parser itself is external to the repository, so a source unit is modelled by
its parse outcome (`Except ParseErr Module`) plus the line count that
`len(code.split('\n'))` reports.  `ast.walk`'s breadth-first queue traversal is
embedded as `walkFuel`/`walkAux`, and Python dicts (which preserve insertion
order) are embedded as association lists with in-place update.
-/

namespace CodeAnalyzer

/-- The shape of a call expression's target (`ast.Call.func`): a bare name
(`ast.Name`, carrying `.id`), an attribute access (`ast.Attribute`, carrying
`.attr`), or any other expression shape (ignored by the detector). -/
inductive FuncExpr where
  | name (id : String)
  | attr (attrName : String)
  | otherTarget
deriving DecidableEq

/-- A node of the parsed tree.  Constructors carry exactly the metadata the two
analyzers read, plus the child-node list that `ast.iter_child_nodes` exposes
(for statements, the `body`; for a call, its sub-expressions).  Expression
strings produced by `ast.unparse` (base classes, decorators) and
`ast.get_docstring` results are carried as already-computed fields, since the
analyzers only store them.  Any node kind the analyzers do not inspect
(assignments, if-statements, a bare `ast.Expr` wrapper, ...) is `other`. -/
inductive Node where
  | functionDef (fname : String) (lineno : Nat) (args : List String)
      (decorators : List String) (docstring : Option String) (body : List Node)
  | asyncFunctionDef (fname : String) (lineno : Nat) (args : List String)
      (decorators : List String) (docstring : Option String) (body : List Node)
  | classDef (cname : String) (lineno : Nat) (bases : List String)
      (docstring : Option String) (body : List Node)
  | importStmt (lineno : Nat) (names : List (String × Option String))
  | importFromStmt (lineno : Nat) (module : Option String)
      (names : List (String × Option String))
  | call (lineno : Nat) (func : FuncExpr) (kidsList : List Node)
  | other (kidsList : List Node)

/-- A module (`ast.Module`): the root of one source unit's tree, holding the
top-level statement list. -/
structure Module where
  body : List Node

/-- Child nodes, as `ast.iter_child_nodes` yields them (the alias nodes of
an import-statement contain no calls or definitions and are dropped). -/
def kids : Node → List Node
  | .functionDef _ _ _ _ _ body => body
  | .asyncFunctionDef _ _ _ _ _ body => body
  | .classDef _ _ _ _ body => body
  | .importStmt _ _ => []
  | .importFromStmt _ _ _ => []
  | .call _ _ ks => ks
  | .other ks => ks

mutual
/-- Number of embedded nodes in a tree (used as traversal fuel). -/
def nodeSize : Node → Nat
  | .functionDef _ _ _ _ _ body => nodesSize body + 1
  | .asyncFunctionDef _ _ _ _ _ body => nodesSize body + 1
  | .classDef _ _ _ _ body => nodesSize body + 1
  | .importStmt _ _ => 1
  | .importFromStmt _ _ _ => 1
  | .call _ _ ks => nodesSize ks + 1
  | .other ks => nodesSize ks + 1

/-- Total node count of a list of trees. -/
def nodesSize : List Node → Nat
  | [] => 0
  | n :: l => nodeSize n + nodesSize l
end

/-- `ast.walk`'s breadth-first queue loop (`todo = deque([node]); while todo:
node = todo.popleft(); todo.extend(iter_child_nodes(node)); yield node`),
written with explicit fuel so that it is structurally recursive.  With
`fuel ≥ nodesSize queue` the fuel never runs out (each step consumes a node). -/
def walkFuel : Nat → List Node → List Node
  | _, [] => []
  | 0, q => q
  | fuel + 1, n :: rest => n :: walkFuel fuel (rest ++ kids n)

/-- `ast.walk` started on a queue of nodes, with sufficient fuel. -/
def walkAux (q : List Node) : List Node := walkFuel (nodesSize q) q

/-- All nodes of all trees in a list: each tree's root followed by the nodes of
its subtrees.  This is the set of nodes `ast.walk` visits, in a different
order; it exists to reason about walk membership. -/
def subNodesList : List Node → List Node
  | [] => []
  | n :: l => (n :: subNodesList (kids n)) ++ subNodesList l
termination_by l => nodesSize l
decreasing_by
  · cases n <;> simp [kids, nodeSize, nodesSize] <;> omega
  · have hn : 0 < nodeSize n := by cases n <;> simp [nodeSize]
    simp [nodesSize]; omega

/-- All nodes of one tree. -/
def subNodes (n : Node) : List Node := n :: subNodesList (kids n)

/-- The parser's failure value (`SyntaxError` raised by `ast.parse`), carrying
the offending position when the parser provides one.  The parser itself is
external to the repository, so a source unit enters the embedding as its parse
outcome. -/
structure ParseErr where
  msg : String
  errLine : Option Nat
  errCol : Option Nat
deriving DecidableEq

/-- A source unit's text, abstracted to the two observations the analyzers
make of it: its reported line count (`len(code.split('\n'))`) and its parse
outcome (`ast.parse(code)` yielding a tree or raising). -/
structure Code where
  lines : Nat
  parsed : Except ParseErr Module

namespace Relationships

/-- The `"type"` field of a recorded relationship: `"function_call"` (bare-name
target) or `"method_call"` (attribute target). -/
inductive CallKind where
  | function_call
  | method_call
deriving DecidableEq

/-- One element of `RelationshipDetector.relationships`: the dict
`{"caller": ..., "callee": ..., "line": ..., "type": ...}`.  `caller` is
`self.current_function`, which is `None` until a function definition has been
entered. -/
structure Edge where
  caller : Option String
  callee : String
  line : Nat
  kind : CallKind
deriving DecidableEq

/-- Python dict assignment `d[k] = v`: replaces the value in place when the key
exists (keeping the key's insertion position), otherwise appends the pair. -/
def dictSet (d : List (String × List String)) (k : String) (v : List String) :
    List (String × List String) :=
  match d with
  | [] => [(k, v)]
  | (k', v') :: rest => if k' = k then (k, v) :: rest else (k', v') :: dictSet rest k v

/-- `self.function_calls[cf].append(x)`: appends to the value at key `cf`.  In
the source this point is only reached when `cf` was just assigned by
`_analyze_calls`, so the key is always present; an absent key leaves the dict
unchanged here (Python would raise `KeyError`, which never occurs). -/
def dictPush (d : List (String × List String)) (k : String) (x : String) :
    List (String × List String) :=
  match d with
  | [] => []
  | (k', v') :: rest =>
      if k' = k then (k', v' ++ [x]) :: rest else (k', v') :: dictPush rest k x

/-- The mutable fields of a `RelationshipDetector` instance (`__init__`). -/
structure DetState where
  relationships : List Edge
  function_calls : List (String × List String)
  current_function : Option String

/-- A freshly constructed `RelationshipDetector()`. -/
def freshDetector : DetState :=
  { relationships := [], function_calls := [], current_function := none }

/-- The body of the `for child in ast.walk(node)` loop of
`_find_calls_in_node`: record an edge for a call whose target is a bare name
(also noting the callee under the current caller in `function_calls`) or an
attribute; ignore every other node. -/
def findCallsStep (s : DetState) (child : Node) : DetState :=
  match child with
  | .call line (.name called) _ =>
      let s₁ := { s with relationships := s.relationships ++
        [({ caller := s.current_function, callee := called, line := line,
            kind := .function_call } : Edge)] }
      match s₁.current_function with
      | some cf => { s₁ with function_calls := dictPush s₁.function_calls cf called }
      | none => s₁
  | .call line (.attr method) _ =>
      { s with relationships := s.relationships ++
        [({ caller := s.current_function, callee := method, line := line,
            kind := .method_call } : Edge)] }
  | _ => s

/-- `RelationshipDetector._find_calls_in_node`: walk the node's subtree and
record every call found. -/
def find_calls_in_node (s : DetState) (node : Node) : DetState :=
  (walkAux [node]).foldl findCallsStep s

/-- The body of the `for node in ast.walk(tree)` loop of `_analyze_calls`: on a
(sync or async) function definition, set `current_function`, reset that name's
entry in `function_calls`, and search the definition's subtree for calls. -/
def analyzeStep (s : DetState) (node : Node) : DetState :=
  match node with
  | .functionDef fname _ _ _ _ _ =>
      find_calls_in_node
        { s with current_function := some fname,
                 function_calls := dictSet s.function_calls fname [] } node
  | .asyncFunctionDef fname _ _ _ _ _ =>
      find_calls_in_node
        { s with current_function := some fname,
                 function_calls := dictSet s.function_calls fname [] } node
  | _ => s

/-- `RelationshipDetector._analyze_calls`: walk the whole tree (the root
`ast.Module` node matches no `isinstance` test and is skipped, so the walk of
the body remains) and process every function definition encountered. -/
def analyze_calls (s : DetState) (tree : Module) : DetState :=
  (walkAux tree.body).foldl analyzeStep s

/-- Building the `call_counts` dict of `_get_most_called`/`_get_most_calls_from`:
`call_counts[k] = call_counts.get(k, 0) + 1`, preserving insertion order. -/
def bump {κ : Type} [DecidableEq κ] (d : List (κ × Nat)) (k : κ) : List (κ × Nat) :=
  match d with
  | [] => [(k, 1)]
  | (k', c) :: rest => if k' = k then (k', c + 1) :: rest else (k', c) :: bump rest k

/-- Occurrence counts of the keys of `names`, in first-seen key order (the
iteration of `for r in self.relationships: call_counts[...] += 1`). -/
def countBy {κ : Type} [DecidableEq κ] (names : List κ) : List (κ × Nat) :=
  names.foldl bump []

/-- The distinct elements of a list in order of first appearance (the key
order of an insertion-ordered dict filled by iterating the list).  Used to
characterise `countBy`. -/
def firstSeen {κ : Type} [DecidableEq κ] : List κ → List κ
  | [] => []
  | x :: l => x :: (firstSeen l).filter (fun k => k ≠ x)

/-- The comparison performed by `sorted(..., key=lambda x: x[1], reverse=True)`:
descending by count.  Python's sort is stable, and `List.insertionSort` is a
stable sort, so the embedding preserves the order of tied entries. -/
def byCountDesc {κ : Type} (p q : κ × Nat) : Prop := q.2 ≤ p.2

instance {κ : Type} : DecidableRel (byCountDesc (κ := κ)) :=
  fun p q => Nat.decLe q.2 p.2

/-- `RelationshipDetector._get_most_called`: occurrence counts of callees,
sorted descending (stably), truncated to `limit`. -/
def most_called (limit : Nat) (relationships : List Edge) : List (String × Nat) :=
  ((countBy (relationships.map (·.callee))).insertionSort byCountDesc).take limit

/-- `RelationshipDetector._get_most_calls_from`: same ranking over callers. -/
def most_calls_from (limit : Nat) (relationships : List Edge) :
    List (Option String × Nat) :=
  ((countBy (relationships.map (·.caller))).insertionSort byCountDesc).take limit

/-- The `"stats"` dict: `{}` after a parse failure; the three zero counts when
no relationship was recorded; otherwise the five-key structure computed by
`_calculate_stats`. -/
inductive Stats where
  | empty
  | zeroCounts
  | full (total_calls : Nat) (unique_callers : Nat) (unique_callees : Nat)
      (mostCalled : List (String × Nat)) (mostCallsFrom : List (Option String × Nat))
deriving DecidableEq

/-- `RelationshipDetector._calculate_stats`. -/
def calculate_stats (relationships : List Edge) : Stats :=
  if relationships = [] then .zeroCounts
  else
    .full relationships.length
      ((relationships.map (·.caller)).dedup.length)
      ((relationships.map (·.callee)).dedup.length)
      (most_called 5 relationships)
      (most_calls_from 5 relationships)

/-- The value returned by `detect_relationships`. -/
structure DetResult where
  relationships : List Edge
  stats : Stats
deriving DecidableEq

/-- `RelationshipDetector.detect_relationships`: reset the per-call
accumulators, parse, analyze, and derive statistics; a `SyntaxError` from the
parser is caught and converted to the empty result (so no fault propagates). -/
def detect_relationships (s : DetState) (input : Except ParseErr Module) :
    DetResult × DetState :=
  let s₁ := { s with relationships := [], function_calls := [] }
  match input with
  | .error _ => (({ relationships := [], stats := .empty } : DetResult), s₁)
  | .ok tree =>
      let s₂ := analyze_calls s₁ tree
      (({ relationships := s₂.relationships,
          stats := calculate_stats s₂.relationships } : DetResult), s₂)

end Relationships

namespace Extractor

/-- One element of `self.entities["classes"]`. -/
structure ClassEntity where
  cname : String
  line : Nat
  methods : List String
  method_count : Nat
  bases : List String
  docstring : String
deriving DecidableEq

/-- One element of `self.entities["functions"]`. -/
structure FunctionEntity where
  fname : String
  line : Nat
  args : List String
  arg_count : Nat
  decorators : List String
  docstring : String
deriving DecidableEq

/-- One element of `self.entities["imports"]`: a plain-import record
(`{"type": "import", "module", "alias", "line"}`) or a from-import record
(`{"type": "from", "module", "name", "alias", "line"}`). -/
inductive ImportEntity where
  | plain (module : String) (asname : Option String) (line : Nat)
  | fromModule (module : String) (originalName : String) (asname : Option String)
      (line : Nat)
deriving DecidableEq

/-- The `self.entities` dict.  `file_path` and `total_lines` are only present
after a successful read (`Option.none` models an absent key); `decorators` is
initialized but never appended to. -/
structure Entities where
  classes : List ClassEntity
  functions : List FunctionEntity
  imports : List ImportEntity
  decorators : List String
  file_path : Option String
  total_lines : Option Nat
deriving DecidableEq

/-- The collections as `__init__` (and the per-call reset) creates them. -/
def emptyEntities : Entities :=
  { classes := [], functions := [], imports := [], decorators := [],
    file_path := none, total_lines := none }

/-- The mutable fields of a `CodeExtractor` instance. -/
structure ExtState where
  entities : Entities
  current_file : String

/-- A freshly constructed `CodeExtractor()`. -/
def freshExtractor : ExtState :=
  { entities := emptyEntities, current_file := "" }

/-- The method-name comprehension of `_extract_class`:
`[n.name for n in node.body if isinstance(n, ast.FunctionDef)]` — only the
class's direct body, and only synchronous function definitions. -/
def directMethodNames (body : List Node) : List String :=
  body.filterMap fun n =>
    match n with
    | .functionDef fname _ _ _ _ _ => some fname
    | _ => none

/-- `CodeExtractor._extract_class` (appends one `ClassEntity`); on any other
node shape it is never invoked, embedded as the identity. -/
def extract_class (es : Entities) (node : Node) : Entities :=
  match node with
  | .classDef cname lineno bases docstring body =>
      let methods := directMethodNames body
      { es with classes := es.classes ++
        [({ cname := cname, line := lineno, methods := methods,
            method_count := methods.length,
            bases := if bases = [] then ["object"] else bases,
            docstring := docstring.getD "" } : ClassEntity)] }
  | _ => es

/-- `CodeExtractor._extract_function` (appends one `FunctionEntity`). -/
def extract_function (es : Entities) (node : Node) : Entities :=
  match node with
  | .functionDef fname lineno args decorators docstring _ =>
      { es with functions := es.functions ++
        [({ fname := fname, line := lineno, args := args,
            arg_count := args.length, decorators := decorators,
            docstring := docstring.getD "" } : FunctionEntity)] }
  | _ => es

/-- `CodeExtractor._extract_import`: one record per alias of the statement. -/
def extract_import (es : Entities) (node : Node) : Entities :=
  match node with
  | .importStmt lineno names =>
      { es with imports := es.imports ++
        names.map fun a => ImportEntity.plain a.1 a.2 lineno }
  | .importFromStmt lineno module names =>
      { es with imports := es.imports ++
        names.map fun a => ImportEntity.fromModule (module.getD "") a.1 a.2 lineno }
  | _ => es

/-- The body of the `for node in ast.walk(tree)` loop of `_walk_tree`: the
`isinstance` chain dispatches class definitions, synchronous function
definitions (an async definition matches neither test), and both import
statement forms. -/
def walkTreeStep (es : Entities) (node : Node) : Entities :=
  match node with
  | .classDef _ _ _ _ _ => extract_class es node
  | .functionDef _ _ _ _ _ _ => extract_function es node
  | .importStmt _ _ => extract_import es node
  | .importFromStmt _ _ _ => extract_import es node
  | _ => es

/-- `CodeExtractor._walk_tree`: walk the whole tree (the root `ast.Module` node
matches no `isinstance` test) and dispatch every entity node encountered. -/
def walk_tree (es : Entities) (tree : Module) : Entities :=
  (walkAux tree.body).foldl walkTreeStep es

/-- Messages written to the diagnostic channel (the `print` calls of
`extract_from_file`). -/
inductive LogMsg where
  | readError (path : String) (msg : String)
  | parseFailure (path : String) (err : ParseErr)
deriving DecidableEq

/-- `CodeExtractor.extract_from_file`.  The file read is modelled by its
outcome: `Except.error` when `open`/`read` raises (the caught `Exception e`),
`Except.ok` when it yields the text.  On a read failure the method returns the
instance's current `self.entities` unchanged; on a parse failure it returns the
freshly reset collections; otherwise it walks the tree.  The returned triple is
(return value, instance state after the call, diagnostics printed). -/
def extract_from_file (s : ExtState) (path : String)
    (read : Except String Code) : Entities × ExtState × List LogMsg :=
  match read with
  | .error msg => (s.entities, s, [.readError path msg])
  | .ok code =>
      let reset : Entities :=
        { classes := [], functions := [], imports := [], decorators := [],
          file_path := some path, total_lines := some code.lines }
      let s₁ : ExtState := { entities := reset, current_file := path }
      match code.parsed with
      | .error e => (s₁.entities, s₁, [.parseFailure path e])
      | .ok tree =>
          let es := walk_tree s₁.entities tree
          (es, { s₁ with entities := es }, [])

end Extractor

/-! ## Concrete source units used as inputs -/

/-- The tree of `def f():\n    def g():\n        foo()` — a call inside a
nested function definition (the call statement is the `ast.Expr` wrapper, an
uninspected node, around the `ast.Call`). -/
def exNestedCalls : Module :=
  ⟨[.functionDef "f" 1 [] [] none
      [.functionDef "g" 2 [] [] none
        [.other [.call 3 (.name "foo") []]]]]⟩

/-- The tree of `foo()` — a single module-level call outside any function. -/
def exModuleLevelCall : Module := ⟨[.other [.call 1 (.name "foo") []]]⟩

/-- The tree of a class `Outer` with direct methods `a`, `b` and a nested class
`Inner` declaring method `c`. -/
def exClasses : Module :=
  ⟨[.classDef "Outer" 1 [] none
      [.functionDef "a" 2 [] [] none [],
       .functionDef "b" 3 [] [] none [],
       .classDef "Inner" 4 [] none [.functionDef "c" 5 [] [] none []]]]⟩

/-- A parse failure as the external parser reports it for malformed text. -/
def exParseErr : ParseErr :=
  { msg := "unmatched bracket", errLine := some 1, errCol := some 1 }

/-- The position guarantee the external parser provides (checked over the
walk of the whole tree): every call-expression node carries a 1-based line
number no greater than the source unit's reported line count. -/
def callLinesOK (total : Nat) (m : Module) : Bool :=
  (walkAux m.body).all fun n =>
    match n with
    | .call line _ _ => decide (1 ≤ line ∧ line ≤ total)
    | _ => true

/-! ## Traversal lemmas -/

theorem nodesSize_append (l₁ l₂ : List Node) :
    nodesSize (l₁ ++ l₂) = nodesSize l₁ + nodesSize l₂ := by
  induction l₁ with
  | nil => simp [nodesSize]
  | cons n l ih => simp [nodesSize, ih]; omega

theorem nodesSize_kids_lt (n : Node) : nodesSize (kids n) < nodeSize n := by
  cases n <;> simp [kids, nodeSize, nodesSize]


theorem nodeSize_pos (n : Node) : 0 < nodeSize n :=
  Nat.lt_of_le_of_lt (Nat.zero_le _) (nodesSize_kids_lt n)

theorem walkFuel_fuel_irrel :
    ∀ (f₁ f₂ : Nat) (q : List Node), nodesSize q ≤ f₁ → nodesSize q ≤ f₂ →
      walkFuel f₁ q = walkFuel f₂ q := by
  intro f₁
  induction f₁ with
  | zero =>
    intro f₂ q hq _
    cases q with
    | nil => cases f₂ <;> simp [walkFuel]
    | cons n rest =>
      exfalso
      have := nodeSize_pos n
      simp [nodesSize] at hq
      omega
  | succ f ih =>
    intro f₂ q hq hq₂
    cases q with
    | nil => cases f₂ <;> simp [walkFuel]
    | cons n rest =>
      have hkids := nodesSize_kids_lt n
      have hqsz : nodesSize (n :: rest) = nodeSize n + nodesSize rest := rfl
      have hnext : nodesSize (rest ++ kids n) < nodesSize (n :: rest) := by
        rw [nodesSize_append, hqsz]; omega
      cases f₂ with
      | zero =>
        exfalso
        have := nodeSize_pos n
        rw [hqsz] at hq₂
        omega
      | succ g =>
        show n :: walkFuel f (rest ++ kids n) = n :: walkFuel g (rest ++ kids n)
        have h₁ : nodesSize (rest ++ kids n) ≤ f := by omega
        have h₂ : nodesSize (rest ++ kids n) ≤ g := by omega
        rw [ih g (rest ++ kids n) h₁ h₂]

theorem walkAux_nil : walkAux [] = [] := rfl

theorem walkAux_cons (n : Node) (rest : List Node) :
    walkAux (n :: rest) = n :: walkAux (rest ++ kids n) := by
  have hkids := nodesSize_kids_lt n
  have hqsz : nodesSize (n :: rest) = nodeSize n + nodesSize rest := rfl
  have hpos := nodeSize_pos n
  obtain ⟨k, hk⟩ : ∃ k, nodesSize (n :: rest) = k + 1 := by
    refine ⟨nodesSize (n :: rest) - 1, ?_⟩
    omega
  show walkFuel (nodesSize (n :: rest)) (n :: rest) = _
  rw [hk]
  show n :: walkFuel k (rest ++ kids n) = n :: walkAux (rest ++ kids n)
  congr 1
  exact walkFuel_fuel_irrel k (nodesSize (rest ++ kids n)) (rest ++ kids n)
    (by rw [nodesSize_append]; omega) (Nat.le_refl _)


theorem subNodesList_cons (n : Node) (l : List Node) :
    subNodesList (n :: l) = subNodes n ++ subNodesList l := by
  rw [subNodesList, subNodes]

theorem subNodesList_append (l₁ l₂ : List Node) :
    subNodesList (l₁ ++ l₂) = subNodesList l₁ ++ subNodesList l₂ := by
  induction l₁ with
  | nil => simp [subNodesList]
  | cons n l ih => simp [subNodesList_cons, ih]

theorem mem_subNodesList_iff {x : Node} {l : List Node} :
    x ∈ subNodesList l ↔ ∃ n ∈ l, x ∈ subNodes n := by
  induction l with
  | nil => simp [subNodesList]
  | cons n l ih =>
    simp only [subNodesList_cons, List.mem_append, ih, List.mem_cons]
    constructor
    · rintro (h | ⟨m, hm, hx⟩)
      · exact ⟨n, Or.inl rfl, h⟩
      · exact ⟨m, Or.inr hm, hx⟩
    · rintro ⟨m, h | hm, hx⟩
      · exact Or.inl (h ▸ hx)
      · exact Or.inr ⟨m, hm, hx⟩

theorem self_mem_subNodes (n : Node) : n ∈ subNodes n := List.mem_cons_self _ _

theorem nodeSize_le_of_mem {n : Node} {l : List Node} (h : n ∈ l) :
    nodeSize n ≤ nodesSize l := by
  induction l with
  | nil => cases h
  | cons m l ih =>
    rcases List.mem_cons.mp h with h | h
    · subst h
      have : nodesSize (n :: l) = nodeSize n + nodesSize l := rfl
      omega
    · have := ih h
      have h2 : nodesSize (m :: l) = nodeSize m + nodesSize l := rfl
      omega

theorem subNodes_trans :
    ∀ (z y x : Node), y ∈ subNodes z → x ∈ subNodes y → x ∈ subNodes z := by
  have main : ∀ (k : Nat) (z y x : Node), nodeSize z ≤ k →
      y ∈ subNodes z → x ∈ subNodes y → x ∈ subNodes z := by
    intro k
    induction k with
    | zero => intro z _ _ hk; exact absurd hk (by have := nodeSize_pos z; omega)
    | succ k ih =>
      intro z y x hk hy hx
      rcases List.mem_cons.mp hy with h | h
      · exact h ▸ hx
      · obtain ⟨w, hw, hyw⟩ := mem_subNodesList_iff.mp h
        have hwlt : nodeSize w < nodeSize z :=
          Nat.lt_of_le_of_lt (nodeSize_le_of_mem hw) (nodesSize_kids_lt z)
        have hxw : x ∈ subNodes w := ih w y x (by omega) hyw hx
        exact List.mem_cons_of_mem _
          (mem_subNodesList_iff.mpr ⟨w, hw, hxw⟩)
  exact fun z y x => main (nodeSize z) z y x (Nat.le_refl _)

theorem mem_subNodesList_of_walkFuel :
    ∀ (f : Nat) (q : List Node) (x : Node), x ∈ walkFuel f q → x ∈ subNodesList q := by
  intro f
  induction f with
  | zero =>
    intro q x hx
    cases q with
    | nil => cases hx
    | cons n rest =>
      rcases List.mem_cons.mp hx with h | h
      · subst h
        rw [subNodesList_cons]
        exact List.mem_append_left _ (self_mem_subNodes _)
      · rw [subNodesList_cons]
        refine List.mem_append_right _ ?_
        exact mem_subNodesList_iff.mpr ⟨x, h, self_mem_subNodes x⟩
  | succ f ih =>
    intro q x hx
    cases q with
    | nil => cases hx
    | cons n rest =>
      rcases List.mem_cons.mp hx with h | h
      · subst h
        rw [subNodesList_cons]
        exact List.mem_append_left _ (self_mem_subNodes _)
      · have := ih _ _ h
        rw [subNodesList_append] at this
        rw [subNodesList_cons]
        rcases List.mem_append.mp this with h' | h'
        · exact List.mem_append_right _ h'
        · exact List.mem_append_left _ (List.mem_cons_of_mem _ h')

theorem mem_walkFuel_of_subNodesList :
    ∀ (f : Nat) (q : List Node) (x : Node), nodesSize q ≤ f →
      x ∈ subNodesList q → x ∈ walkFuel f q := by
  intro f
  induction f with
  | zero =>
    intro q x hf hx
    cases q with
    | nil => simp [subNodesList] at hx
    | cons n rest => exact absurd hf (by have := nodeSize_pos n; simp [nodesSize]; omega)
  | succ f ih =>
    intro q x hf hx
    cases q with
    | nil => simp [subNodesList] at hx
    | cons n rest =>
      rw [subNodesList_cons] at hx
      have hsz : nodesSize (rest ++ kids n) ≤ f := by
        have := nodesSize_kids_lt n
        rw [nodesSize_append]
        simp [nodesSize] at hf
        omega
      rcases List.mem_append.mp hx with h | h
      · rcases List.mem_cons.mp h with h' | h'
        · exact h' ▸ List.mem_cons_self _ _
        · refine List.mem_cons_of_mem _ (ih _ _ hsz ?_)
          rw [subNodesList_append]
          exact List.mem_append_right _ h'
      · refine List.mem_cons_of_mem _ (ih _ _ hsz ?_)
        rw [subNodesList_append]
        exact List.mem_append_left _ h

theorem mem_walkAux_iff {q : List Node} {x : Node} :
    x ∈ walkAux q ↔ x ∈ subNodesList q :=
  ⟨mem_subNodesList_of_walkFuel _ _ _,
   mem_walkFuel_of_subNodesList _ _ _ (Nat.le_refl _)⟩

theorem mem_walkNode_iff {n x : Node} : x ∈ walkAux [n] ↔ x ∈ subNodes n := by
  rw [mem_walkAux_iff, subNodesList_cons]
  simp [subNodesList]

/-! ## Detector state-independence lemmas -/

namespace Relationships

/-- The `_analyze_calls` loop never reads `current_function` before a function
definition overwrites it, so the relationships and call dict it produces do not
depend on the binding it starts from. -/
theorem foldl_analyzeStep_cf_irrel :
    ∀ (ns : List Node) (r : List Edge) (fc : List (String × List String))
      (cf cf' : Option String),
      (ns.foldl analyzeStep ⟨r, fc, cf⟩).relationships =
          (ns.foldl analyzeStep ⟨r, fc, cf'⟩).relationships ∧
      (ns.foldl analyzeStep ⟨r, fc, cf⟩).function_calls =
          (ns.foldl analyzeStep ⟨r, fc, cf'⟩).function_calls := by
  intro ns
  induction ns with
  | nil => intro r fc cf cf'; exact ⟨rfl, rfl⟩
  | cons n rest ih =>
    intro r fc cf cf'
    cases n with
    | functionDef fname lineno args decs doc body =>
      simp [List.foldl, analyzeStep]
    | asyncFunctionDef fname lineno args decs doc body =>
      simp [List.foldl, analyzeStep]
    | classDef cname lineno bases doc body =>
      simp only [List.foldl, analyzeStep]; exact ih r fc cf cf'
    | importStmt lineno names =>
      simp only [List.foldl, analyzeStep]; exact ih r fc cf cf'
    | importFromStmt lineno module names =>
      simp only [List.foldl, analyzeStep]; exact ih r fc cf cf'
    | call lineno func ks =>
      simp only [List.foldl, analyzeStep]; exact ih r fc cf cf'
    | other ks =>
      simp only [List.foldl, analyzeStep]; exact ih r fc cf cf'

/-- `detect_relationships` resets `relationships` and `function_calls` on
entry, so its returned value does not depend on the instance's prior state. -/
theorem detect_out_state_irrel (s s' : DetState) (input : Except ParseErr Module) :
    (detect_relationships s input).1 = (detect_relationships s' input).1 := by
  cases input with
  | error e => rfl
  | ok tree =>
    have h := foldl_analyzeStep_cf_irrel (walkAux tree.body) [] []
      s.current_function s'.current_function
    show ({ relationships := (analyze_calls _ tree).relationships,
            stats := calculate_stats (analyze_calls _ tree).relationships } : DetResult) =
         ({ relationships := (analyze_calls _ tree).relationships,
            stats := calculate_stats (analyze_calls _ tree).relationships } : DetResult)
    rw [show (analyze_calls { s with relationships := [], function_calls := [] } tree).relationships
          = (analyze_calls { s' with relationships := [], function_calls := [] } tree).relationships
        from h.1]

/-- An edge recorded by one `_find_calls_in_node` loop step was already
present or takes its line from the call node the step inspected. -/
theorem mem_findCallsStep_relationships {s : DetState} {n : Node} {e : Edge}
    (he : e ∈ (findCallsStep s n).relationships) :
    e ∈ s.relationships ∨ ∃ f ks, n = Node.call e.line f ks := by
  cases n with
  | call line f ks =>
    cases f with
    | name id =>
      have hrel : (findCallsStep s (Node.call line (.name id) ks)).relationships =
          s.relationships ++
            [{ caller := s.current_function, callee := id, line := line,
               kind := .function_call }] := by
        simp only [findCallsStep]
        cases s.current_function <;> rfl
      rw [hrel] at he
      rcases List.mem_append.mp he with h | h
      · exact Or.inl h
      · rcases List.mem_singleton.mp h with rfl
        exact Or.inr ⟨.name id, ks, rfl⟩
    | attr a =>
      rcases List.mem_append.mp he with h | h
      · exact Or.inl h
      · rcases List.mem_singleton.mp h with rfl
        exact Or.inr ⟨.attr a, ks, rfl⟩
    | otherTarget => exact Or.inl he
  | functionDef fname lineno args decs doc body => exact Or.inl he
  | asyncFunctionDef fname lineno args decs doc body => exact Or.inl he
  | classDef cname lineno bases doc body => exact Or.inl he
  | importStmt lineno names => exact Or.inl he
  | importFromStmt lineno module names => exact Or.inl he
  | other ks => exact Or.inl he

/-- Line bounds are preserved across a `_find_calls_in_node` loop whose
inspected nodes all have in-range call lines. -/
theorem foldl_findCallsStep_lines {total : Nat} :
    ∀ (ns : List Node) (s : DetState),
      (∀ e ∈ s.relationships, 1 ≤ e.line ∧ e.line ≤ total) →
      (∀ x ∈ ns, ∀ line f ks, x = Node.call line f ks → 1 ≤ line ∧ line ≤ total) →
      ∀ e ∈ (ns.foldl findCallsStep s).relationships, 1 ≤ e.line ∧ e.line ≤ total := by
  intro ns
  induction ns with
  | nil => intro s hs _ e he; exact hs e he
  | cons n rest ih =>
    intro s hs hns e he
    refine ih (findCallsStep s n) ?_ (fun x hx => hns x (List.mem_cons_of_mem _ hx)) e he
    intro e' he'
    rcases mem_findCallsStep_relationships he' with h | ⟨f, ks, rfl⟩
    · exact hs e' h
    · exact hns _ (List.mem_cons_self _ _) e'.line f ks rfl

/-- Line bounds are preserved across the `_analyze_calls` loop when every call
node in the subtree of every processed node is in range. -/
theorem foldl_analyzeStep_lines {total : Nat} :
    ∀ (ns : List Node) (s : DetState),
      (∀ e ∈ s.relationships, 1 ≤ e.line ∧ e.line ≤ total) →
      (∀ x ∈ ns, ∀ y ∈ subNodes x, ∀ line f ks, y = Node.call line f ks →
        1 ≤ line ∧ line ≤ total) →
      ∀ e ∈ (ns.foldl analyzeStep s).relationships, 1 ≤ e.line ∧ e.line ≤ total := by
  intro ns
  induction ns with
  | nil => intro s hs _ e he; exact hs e he
  | cons n rest ih =>
    intro s hs hns e he
    refine ih (analyzeStep s n) ?_ (fun x hx => hns x (List.mem_cons_of_mem _ hx)) e he
    intro e' he'
    have hsub : ∀ x ∈ walkAux [n], ∀ line f ks, x = Node.call line f ks →
        1 ≤ line ∧ line ≤ total := by
      intro x hx line f ks hxc
      exact hns n (List.mem_cons_self _ _) x (mem_walkNode_iff.mp hx) line f ks hxc
    cases n with
    | functionDef fname lineno args decs doc body =>
      simp only [analyzeStep, find_calls_in_node] at he'
      exact foldl_findCallsStep_lines _
        { relationships := s.relationships,
          function_calls := dictSet s.function_calls fname [],
          current_function := some fname } hs hsub e' he'
    | asyncFunctionDef fname lineno args decs doc body =>
      simp only [analyzeStep, find_calls_in_node] at he'
      exact foldl_findCallsStep_lines _
        { relationships := s.relationships,
          function_calls := dictSet s.function_calls fname [],
          current_function := some fname } hs hsub e' he'
    | classDef cname lineno bases doc body => exact hs e' he'
    | importStmt lineno names => exact hs e' he'
    | importFromStmt lineno module names => exact hs e' he'
    | call lineno func ks => exact hs e' he'
    | other ks => exact hs e' he'

/-! ### `countBy` characterisation (first-seen key order, occurrence counts) -/

theorem mem_firstSeen {κ : Type} [DecidableEq κ] {k : κ} :
    ∀ {l : List κ}, k ∈ firstSeen l ↔ k ∈ l := by
  intro l
  induction l with
  | nil => simp [firstSeen]
  | cons x l ih =>
    by_cases hk : k = x
    · subst hk; simp [firstSeen]
    · simp [firstSeen, List.mem_filter, ih, hk]

theorem firstSeen_nodup {κ : Type} [DecidableEq κ] :
    ∀ (l : List κ), (firstSeen l).Nodup := by
  intro l
  induction l with
  | nil => simp [firstSeen]
  | cons x l ih =>
    simp only [firstSeen, List.nodup_cons]
    refine ⟨?_, ih.filter _⟩
    intro hx
    have hne := (List.mem_filter.mp hx).2
    simp at hne

theorem firstSeen_append_singleton {κ : Type} [DecidableEq κ] (c : κ) :
    ∀ (l : List κ), firstSeen (l ++ [c]) =
      if c ∈ l then firstSeen l else firstSeen l ++ [c] := by
  intro l
  induction l with
  | nil => simp [firstSeen]
  | cons x l ih =>
    show firstSeen (x :: (l ++ [c])) = _
    rw [firstSeen, ih]
    by_cases hc : c ∈ l
    · rw [if_pos hc, if_pos (List.mem_cons_of_mem _ hc)]
      rfl
    · rw [if_neg hc, List.filter_append]
      by_cases hcx : c = x
      · subst hcx
        rw [if_pos (List.mem_cons_self _ _)]
        simp [firstSeen]
      · rw [if_neg (by simp [hcx, hc])]
        simp [firstSeen, hcx]

theorem bump_map {κ : Type} [DecidableEq κ] (c : κ) (g : κ → Nat) :
    ∀ (ks : List κ), ks.Nodup →
      bump (ks.map fun k => (k, g k)) c =
        if c ∈ ks then ks.map (fun k => (k, if k = c then g k + 1 else g k))
        else (ks.map fun k => (k, g k)) ++ [(c, 1)] := by
  intro ks
  induction ks with
  | nil => intro _; simp [bump]
  | cons x ks ih =>
    intro hnd
    by_cases hxc : x = c
    · subst hxc
      have hx : x ∉ ks := (List.nodup_cons.mp hnd).1
      rw [if_pos (List.mem_cons_self _ _)]
      simp only [List.map_cons, bump, if_pos rfl]
      refine congrArg (List.cons _) ?_
      apply List.map_congr_left
      intro k hk
      have hkx : ¬ k = x := fun h => hx (h ▸ hk)
      simp [hkx]
    · rw [List.map_cons]
      simp only [bump, if_neg hxc]
      rw [ih (List.nodup_cons.mp hnd).2]
      by_cases hc : c ∈ ks
      · rw [if_pos hc, if_pos (List.mem_cons_of_mem _ hc), List.map_cons, if_neg hxc]
      · have hcxk : c ∉ x :: ks := by
          simp only [List.mem_cons, not_or]
          exact ⟨fun h => hxc h.symm, hc⟩
        rw [if_neg hc, if_neg hcxk]
        simp

theorem bump_countBy_shape {κ : Type} [DecidableEq κ] (pre : List κ) (c : κ) :
    bump ((firstSeen pre).map fun k => (k, pre.count k)) c =
      (firstSeen (pre ++ [c])).map fun k => (k, (pre ++ [c]).count k) := by
  rw [bump_map c _ _ (firstSeen_nodup pre), firstSeen_append_singleton]
  by_cases hc : c ∈ pre
  · rw [if_pos (mem_firstSeen.mpr hc), if_pos hc]
    apply List.map_congr_left
    intro k _
    by_cases hk : k = c
    · subst hk
      simp [List.count_append]
    · have : c ≠ k := fun h => hk h.symm
      simp [hk, List.count_append, List.count_cons, this]
  · rw [if_neg (fun h => hc (mem_firstSeen.mp h)), if_neg hc, List.map_append]
    congr 1
    · apply List.map_congr_left
      intro k hk
      have hkc : c ≠ k := fun h => hc (h ▸ mem_firstSeen.mp hk)
      simp [List.count_append, List.count_cons, hkc]
    · simp [List.count_append, List.count_eq_zero.mpr hc]

theorem foldl_bump_countBy {κ : Type} [DecidableEq κ] :
    ∀ (names pre : List κ),
      List.foldl bump ((firstSeen pre).map fun k => (k, pre.count k)) names =
        (firstSeen (pre ++ names)).map fun k => (k, (pre ++ names).count k) := by
  intro names
  induction names with
  | nil => intro pre; simp
  | cons c rest ih =>
    intro pre
    rw [List.foldl_cons, bump_countBy_shape, ih (pre ++ [c]), List.append_assoc]
    rfl

/-- `countBy` lists, in first-seen order, each distinct element of `names`
paired with its occurrence count. -/
theorem countBy_eq {κ : Type} [DecidableEq κ] (names : List κ) :
    countBy names = (firstSeen names).map fun k => (k, names.count k) := by
  have h := foldl_bump_countBy names []
  simpa [countBy, firstSeen] using h

/-! ### Stability of the descending sort (ties keep first-seen order) -/

theorem pairwise_orderedInsert_lex {κ : Type} (pos : κ × Nat → Nat) (a : κ × Nat) :
    ∀ (l : List (κ × Nat)),
      l.Pairwise (fun p q => q.2 < p.2 ∨ (p.2 = q.2 ∧ pos p < pos q)) →
      (∀ b ∈ l, a.2 = b.2 → pos a < pos b) →
      (l.orderedInsert byCountDesc a).Pairwise
        (fun p q => q.2 < p.2 ∨ (p.2 = q.2 ∧ pos p < pos q)) := by
  intro l
  induction l with
  | nil =>
    intro _ _
    simp [List.orderedInsert]
  | cons b t ih =>
    intro hl ha
    simp only [List.orderedInsert]
    by_cases hab : byCountDesc a b
    · rw [if_pos hab]
      have hab' : b.2 ≤ a.2 := hab
      refine List.pairwise_cons.mpr ⟨?_, hl⟩
      intro y hy
      rcases List.mem_cons.mp hy with rfl | hyt
      · rcases Nat.lt_or_ge y.2 a.2 with h | h
        · exact Or.inl h
        · have heq : a.2 = y.2 := Nat.le_antisymm h hab'
          exact Or.inr ⟨heq, ha y (List.mem_cons_self _ _) heq⟩
      · have hby := (List.pairwise_cons.mp hl).1 y hyt
        rcases hby with h | ⟨hbe, hbp⟩
        · exact Or.inl (Nat.lt_of_lt_of_le h hab')
        · rcases Nat.lt_or_ge b.2 a.2 with h2 | h2
          · exact Or.inl (hbe ▸ h2)
          · have heq : a.2 = b.2 := Nat.le_antisymm h2 hab'
            exact Or.inr ⟨heq.trans hbe,
              Nat.lt_trans (ha b (List.mem_cons_self _ _) heq) hbp⟩
    · rw [if_neg hab]
      have hba : a.2 < b.2 := Nat.lt_of_not_le hab
      refine List.pairwise_cons.mpr
        ⟨?_, ih (List.pairwise_cons.mp hl).2
          (fun b' hb' => ha b' (List.mem_cons_of_mem _ hb'))⟩
      intro y hy
      rcases (List.mem_orderedInsert _).mp hy with rfl | hyt
      · exact Or.inl hba
      · exact (List.pairwise_cons.mp hl).1 y hyt

theorem pairwise_insertionSort_lex {κ : Type} (pos : κ × Nat → Nat) :
    ∀ (l : List (κ × Nat)),
      l.Pairwise (fun p q => p.2 = q.2 → pos p < pos q) →
      (l.insertionSort byCountDesc).Pairwise
        (fun p q => q.2 < p.2 ∨ (p.2 = q.2 ∧ pos p < pos q)) := by
  intro l
  induction l with
  | nil => intro _; simp [List.insertionSort]
  | cons a t ih =>
    intro hl
    rw [List.insertionSort]
    apply pairwise_orderedInsert_lex
    · exact ih (List.pairwise_cons.mp hl).2
    · intro b hb heq
      exact (List.pairwise_cons.mp hl).1 b ((List.mem_insertionSort _).mp hb) heq

theorem firstSeen_pairwise_indexOf {κ : Type} [DecidableEq κ] :
    ∀ (l : List κ), (firstSeen l).Pairwise (fun a b => l.indexOf a < l.indexOf b) := by
  intro l
  induction l with
  | nil => simp [firstSeen]
  | cons x l ih =>
    rw [firstSeen]
    refine List.pairwise_cons.mpr ⟨?_, ?_⟩
    · intro b hb
      have hbx : b ≠ x := by simpa using (List.mem_filter.mp hb).2
      rw [List.indexOf_cons_self, List.indexOf_cons_ne _ (Ne.symm hbx)]
      exact Nat.succ_pos _
    · have hp := ih.filter (fun k => decide (k ≠ x))
      refine List.Pairwise.imp_of_mem ?_ hp
      intro a b ha hb hab
      have hax : a ≠ x := by simpa using (List.mem_filter.mp ha).2
      have hbx : b ≠ x := by simpa using (List.mem_filter.mp hb).2
      rw [List.indexOf_cons_ne _ (Ne.symm hax), List.indexOf_cons_ne _ (Ne.symm hbx)]
      omega

/-- The descending sort of the first-seen counts, compared by count alone, is
ranked by the claim's tie-breaking order: strictly fewer occurrences, or equal
occurrences and a strictly earlier first appearance. -/
theorem countBy_sorted_pairwise {κ : Type} [DecidableEq κ] (names : List κ) :
    ((countBy names).insertionSort byCountDesc).Pairwise
      (fun p q => q.2 < p.2 ∨ (p.2 = q.2 ∧ names.indexOf p.1 < names.indexOf q.1)) := by
  apply pairwise_insertionSort_lex (fun p => names.indexOf p.1)
  rw [countBy_eq, List.pairwise_map]
  exact (firstSeen_pairwise_indexOf names).imp (fun h => fun _ => h)

end Relationships

namespace Extractor

/-- The `_walk_tree` loop only appends to the entity collections; the
`total_lines` value set before parsing is left untouched. -/
theorem foldl_walkTreeStep_total_lines :
    ∀ (ns : List Node) (es : Entities),
      (ns.foldl walkTreeStep es).total_lines = es.total_lines := by
  intro ns
  induction ns with
  | nil => intro es; rfl
  | cons n rest ih =>
    intro es
    rw [List.foldl_cons, ih]
    cases n <;> simp [walkTreeStep, extract_class, extract_function, extract_import]

end Extractor

/-! ## Claim theorems -/

open Relationships Extractor

/-- **C1** (code evaluation at the failing input): the claim says each call
expression yields exactly one edge, attributed to its innermost enclosing
function.  On `def f():\n    def g():\n        foo()` the detector instead
emits the single call `foo()` twice — `ast.walk` reaches both `f` and `g`, and
`_find_calls_in_node` re-walks the whole subtree of each — first attributed to
`f`, then to `g`. -/
theorem nested_call_emitted_twice :
    (detect_relationships freshDetector (.ok exNestedCalls)).1.relationships =
      [{ caller := some "f", callee := "foo", line := 3, kind := .function_call },
       { caller := some "g", callee := "foo", line := 3, kind := .function_call }] := by
  decide

/-- **C2** (code evaluation at the failing input): the claim says a
module-level call yields an edge with an absent caller.  On `foo()` the
detector emits no edge at all — `_analyze_calls` only searches inside
function-definition subtrees — and returns the zero-count stats of an empty
edge list. -/
theorem module_level_call_emits_no_edge :
    (detect_relationships freshDetector (.ok exModuleLevelCall)).1 =
      { relationships := [], stats := .zeroCounts } := by
  decide

/-- **C3** (counterexample): the claim says a malformed source unit yields a
stats structure with all counts present and equal to zero; on a concrete parse
failure the detector instead returns the empty stats dict `{}`
(`Stats.empty`), which carries no counts (it differs from the zero-count
shape). -/
theorem parse_failure_stats_empty_not_zero :
    (detect_relationships freshDetector (.error exParseErr)).1 =
      { relationships := [], stats := .empty } ∧
    Stats.empty ≠ Stats.zeroCounts := by
  exact ⟨rfl, by decide⟩

/-- **C3** (amended): for every malformed source unit, `detect_relationships`
returns an empty edge list together with the empty stats structure (no counts
present), and propagates no fault to the caller (the embedded operation is a
total function; the `SyntaxError` is caught inside it). -/
theorem parse_failure_returns_empty_result :
    ∀ (s : DetState) (e : ParseErr),
      (detect_relationships s (.error e)).1 =
        { relationships := [], stats := .empty } := by
  intro s e
  rfl

/-- **C4**: `_get_most_called` returns at most 5 pairs; every returned pair is
a callee name occurring in the edge sequence together with its incoming-edge
count; the pairs are ranked in descending order of count, with ties at equal
counts broken by the first-seen order of the callee name in the edge sequence;
and on edges `[(_,x),(_,x),(_,y)]` with `x ≠ y` it returns `[(x,2),(y,1)]`. -/
theorem most_called_top5_spec :
    (∀ rs : List Edge, (most_called 5 rs).length ≤ 5) ∧
    (∀ (rs : List Edge) (p : String × Nat), p ∈ most_called 5 rs →
        p.1 ∈ rs.map (·.callee) ∧ p.2 = (rs.map (·.callee)).count p.1) ∧
    (∀ rs : List Edge, (most_called 5 rs).Pairwise
        (fun p q => q.2 < p.2 ∨ (p.2 = q.2 ∧
          (rs.map (·.callee)).indexOf p.1 < (rs.map (·.callee)).indexOf q.1))) ∧
    (∀ (u v w : Option String) (x y : String) (l₁ l₂ l₃ : Nat) (k₁ k₂ k₃ : CallKind),
        x ≠ y →
        most_called 5 [⟨u, x, l₁, k₁⟩, ⟨v, x, l₂, k₂⟩, ⟨w, y, l₃, k₃⟩] =
          [(x, 2), (y, 1)]) := by
  refine ⟨?_, ?_, ?_, ?_⟩
  · intro rs
    simp only [most_called]
    rw [List.length_take]
    exact min_le_left _ _
  · intro rs p hp
    have h1 : p ∈ (countBy (rs.map (·.callee))).insertionSort byCountDesc :=
      List.take_subset _ _ hp
    have h2 : p ∈ countBy (rs.map (·.callee)) := (List.mem_insertionSort _).mp h1
    rw [countBy_eq] at h2
    rcases List.mem_map.mp h2 with ⟨k, hk, rfl⟩
    exact ⟨mem_firstSeen.mp hk, rfl⟩
  · intro rs
    exact List.Pairwise.sublist (List.take_sublist 5 _)
      (countBy_sorted_pairwise (rs.map (·.callee)))
  · intro u v w x y l₁ l₂ l₃ k₁ k₂ k₃ hxy
    simp [most_called, countBy, bump, hxy, List.insertionSort, List.orderedInsert,
      byCountDesc]

/-- **C4** witness: the tie-free concrete instance, with the `x ≠ y`
hypothesis discharged at `x := "x"`, `y := "y"`. -/
theorem most_called_top5_spec_witness :
    ("x" : String) ≠ "y" ∧
    most_called 5 [⟨none, "x", 1, .function_call⟩, ⟨none, "x", 2, .function_call⟩,
      ⟨none, "y", 3, .method_call⟩] = [("x", 2), ("y", 1)] :=
  ⟨by decide, most_called_top5_spec.2.2.2 none none none "x" "y" 1 2 3
    .function_call .function_call .method_call (by decide)⟩

/-- **C5**: a class entity's method list is exactly the names of the function
definitions in the class's direct body — membership in the recorded list is
equivalent to a function definition with that name occurring one level deep —
and on the concrete unit with outer methods `a`, `b` and a nested class with
method `c`, extraction yields `methods == [a, b]` for the outer class (`c`
excluded, recorded only under the inner class). -/
theorem class_methods_direct_body_only :
    (∀ (body : List Node) (mname : String),
        mname ∈ directMethodNames body ↔
          ∃ lineno args decorators docstring fbody,
            Node.functionDef mname lineno args decorators docstring fbody ∈ body) ∧
    (∀ (es : Entities) (cname : String) (lineno : Nat) (bases : List String)
        (doc : Option String) (body : List Node),
        (extract_class es (.classDef cname lineno bases doc body)).classes.map (·.methods) =
          es.classes.map (·.methods) ++ [directMethodNames body]) ∧
    ((extract_from_file freshExtractor "unit.py" (.ok ⟨6, .ok exClasses⟩)).1.classes.map
        (fun c => (c.cname, c.methods)) =
      [("Outer", ["a", "b"]), ("Inner", ["c"])]) := by
  refine ⟨?_, ?_, by decide⟩
  · intro body mname
    simp only [directMethodNames, List.mem_filterMap]
    constructor
    · rintro ⟨n, hn, hf⟩
      cases n <;> simp_all
      exact ⟨_, _, _, _, _, hn⟩
    · rintro ⟨lineno, args, decorators, docstring, fbody, hmem⟩
      exact ⟨.functionDef mname lineno args decorators docstring fbody, hmem, rfl⟩
  · intro es cname lineno bases doc body
    simp [extract_class]

/-- **C6**: on a malformed source unit, `extract_from_file` raises no uncaught
fault (the embedded operation is total and takes the caught-`SyntaxError`
branch), returns the result with empty classes/functions/imports collections,
and signals the `SyntaxError` — with the position the parser provided — on the
diagnostic channel, exactly once (no retry). -/
theorem extract_parse_failure_fail_soft :
    ∀ (s : ExtState) (path : String) (lines : Nat) (err : ParseErr),
      (extract_from_file s path (.ok ⟨lines, .error err⟩)).1.classes = [] ∧
      (extract_from_file s path (.ok ⟨lines, .error err⟩)).1.functions = [] ∧
      (extract_from_file s path (.ok ⟨lines, .error err⟩)).1.imports = [] ∧
      (extract_from_file s path (.ok ⟨lines, .error err⟩)).2.2 =
        [.parseFailure path err] := by
  intro s path lines err
  exact ⟨rfl, rfl, rfl, rfl⟩

/-- **C7**: both analyses are deterministic — calling `detect_relationships`
again on the same (successfully parsed) source unit, or `extract_from_file`
again on the same readable file, returns a result identical to the first
call's, the leftover instance state notwithstanding. -/
theorem repeated_analysis_deterministic :
    (∀ (s : DetState) (m : Module),
        (detect_relationships (detect_relationships s (.ok m)).2 (.ok m)).1 =
          (detect_relationships s (.ok m)).1) ∧
    (∀ (s : ExtState) (path : String) (code : Code),
        (extract_from_file (extract_from_file s path (.ok code)).2.1 path (.ok code)).1 =
          (extract_from_file s path (.ok code)).1) := by
  constructor
  · intro s m
    exact detect_out_state_irrel _ _ _
  · intro s path code
    obtain ⟨lines, parsed⟩ := code
    cases parsed <;> rfl

/-- **C8**: analyzing source unit `A` and then source unit `B` with one
detector instance gives, on the second call, exactly the result a fresh
`RelationshipDetector()` would produce for `B` alone — no edge of `A` leaks
into `B`'s result. -/
theorem detector_reuse_no_leak :
    ∀ (s : DetState) (a b : Module),
      (detect_relationships (detect_relationships s (.ok a)).2 (.ok b)).1 =
        (detect_relationships freshDetector (.ok b)).1 := by
  intro s a b
  exact detect_out_state_irrel _ _ _

/-- **C9**: under the external parser's position guarantee (every
call-expression node's line lies in `[1, total-line-count]`, the invariant
CPython's `ast.parse` maintains), every edge `detect_relationships` returns
carries a line number that is positive and no greater than the `total_lines`
value `extract_from_file` reports for the same text. -/
theorem edge_lines_within_total_lines :
    ∀ (s : DetState) (code : Code) (m : Module),
      code.parsed = .ok m → callLinesOK code.lines m = true →
      (∀ e ∈ (detect_relationships s code.parsed).1.relationships,
          1 ≤ e.line ∧ e.line ≤ code.lines) ∧
      (∀ (es : ExtState) (path : String),
          (extract_from_file es path (.ok code)).1.total_lines = some code.lines) := by
  intro s code m hp hok
  constructor
  · intro e he
    rw [hp] at he
    have hcalls : ∀ x ∈ walkAux m.body, ∀ y ∈ subNodes x, ∀ line f ks,
        y = Node.call line f ks → 1 ≤ line ∧ line ≤ code.lines := by
      intro x hx y hy line f ks hyc
      have hysub : y ∈ subNodesList m.body := by
        rcases mem_subNodesList_iff.mp (mem_walkAux_iff.mp hx) with ⟨n, hn, hxn⟩
        exact mem_subNodesList_iff.mpr ⟨n, hn, subNodes_trans n x y hxn hy⟩
      have hall := List.all_eq_true.mp hok y (mem_walkAux_iff.mpr hysub)
      rw [hyc] at hall
      exact of_decide_eq_true hall
    exact foldl_analyzeStep_lines (walkAux m.body) _
      (fun e' he' => absurd he' (List.not_mem_nil e')) hcalls e he
  · intro es path
    obtain ⟨lines, parsed⟩ := code
    simp only at hp
    subst hp
    exact foldl_walkTreeStep_total_lines _ _

/-- **C9** witness: at the concrete three-line nested-calls unit the parser
guarantee holds and the line bound follows. -/
theorem edge_lines_within_total_lines_witness :
    (Code.mk 3 (.ok exNestedCalls)).parsed = .ok exNestedCalls ∧
    callLinesOK 3 exNestedCalls = true ∧
    ∀ e ∈ (detect_relationships freshDetector
        (Code.mk 3 (.ok exNestedCalls)).parsed).1.relationships,
      1 ≤ e.line ∧ e.line ≤ 3 := by
  refine ⟨rfl, by decide, ?_⟩
  exact (edge_lines_within_total_lines freshDetector (Code.mk 3 (.ok exNestedCalls))
    exNestedCalls rfl (by decide)).1

/-- **C10**: when the file read raises, `extract_from_file` returns the
instance's current `self.entities` unchanged (and leaves the state untouched);
in particular, after a previous successful call on the same instance, a read
failure reports the previous file's complete result. -/
theorem read_failure_returns_stale_entities :
    (∀ (s : ExtState) (path msg : String),
        extract_from_file s path (.error msg) = (s.entities, s, [.readError path msg])) ∧
    (∀ (s : ExtState) (p₁ : String) (code : Code) (p₂ msg : String),
        (extract_from_file (extract_from_file s p₁ (.ok code)).2.1 p₂ (.error msg)).1 =
          (extract_from_file s p₁ (.ok code)).1) := by
  constructor
  · intro s path msg
    rfl
  · intro s p₁ code p₂ msg
    obtain ⟨lines, parsed⟩ := code
    cases parsed <;> rfl

end CodeAnalyzer
